import Mathlib

/-!
# MOOSE: `BondStatusPD::computeValue` and the symmetric eigenvalue routine

Part 1 embeds `BondStatusPD::computeValue`
(`modules/peridynamics/src/auxkernels/BondStatusPD.C`).  The `Real` of the source is
any linear ordered field `R` (with a floor function where a `Real` is converted to an
`unsigned int`): the definitions are computable and run on `ℚ`, and the theorems hold
on `ℝ` as well.  Rounding, infinities and NaN of IEEE doubles are outside the model.

Part 2 models `RankTwoTensor::symmetricEigenvalues` and the invariants it uses.  The
file `RankTwoTensor.C` is not among the sources at hand (only the unit test
`unit/src/RankTwoEigenRoutinesTest.C` and the caller in `BondStatusPD.C` are), so these
definitions follow the specification, over the real numbers.
-/

/-- The compile-time constant `LIBMESH_DIM`; `RankTwoTensor` is a 3x3 tensor
(the unit test builds it from nine entries and reads three eigenvalues). -/
def LIBMESH_DIM : Nat := 3

/-- The value type `RankTwoTensor`: a 3x3 array of `Real`, indexed `(i, j)`. -/
abbrev RankTwoTensor (R : Type) : Type := Matrix (Fin 3) (Fin 3) R

/-- The enumeration `FailureCriterion` of `BondStatusPD`, with the two values of
the `MooseEnum` "CriticalStretch MaximumPrincipalStress" declared in `validParams`.
The constructor rejects every other value, so the `default:` arm of the `switch` in
`computeValue` is never reached. -/
inductive FailureCriterion where
  | CriticalStretch
  | MaximumPrincipalStress
  deriving DecidableEq

/-- The exception class `MooseException`, carrying its message. -/
structure MooseException where
  msg : String
  deriving DecidableEq

/-- The state `BondStatusPD::computeValue` reads.  Members keep their source names;
framework calls are recorded by the value they return for the current bond:
`bond_status` is `_bond_status_var.getElementalValue(_current_elem)`,
`node_id n` is `_current_elem->get_node(n)->id()`,
`dof n` is `_current_elem->get_node(n)->dof_number(_aux_sys.number(),
_additional_damage_criterion->number(), 0)`,
`avgVolumeSum` and `volumeSum` are the methods of `_pdmesh`, and `_stress` is the
dereferenced material property `*_stress` (the constructor guarantees that it is
set whenever the criterion is `MaximumPrincipalStress`).  Pointers are taken to be
valid and the framework calls to return. -/
structure BondStatusPD (R : Type) where
  _t : R
  _failure_criterion : FailureCriterion
  bond_status : R
  _critical_val : Nat → R
  _mechanical_stretch : Nat → R
  _stress : Nat → RankTwoTensor R
  _surface_correction : Bool
  _limit_damage : Bool
  _dim : Nat
  node_id : Nat → Nat
  dof : Nat → Nat
  _serialized_solution : Nat → R
  avgVolumeSum : R
  volumeSum : Nat → R

namespace BondStatusPD

variable {R : Type} [LinearOrderedField R]

/-- The implicit conversion of `unsigned int intact_bonds_i = _serialized_solution(dof_i)`:
a `Real` is truncated toward zero and stored in 32 bits.  (C++ leaves the conversion
undefined when the truncated value is negative or at least `2^32`; the model then
yields `0`, respectively the value reduced modulo `2^32`.) -/
def toUnsignedInt [FloorRing R] (x : R) : Nat := (Int.toNat ⌊x⌋) % 2 ^ 32

/-- The local `intact_bonds_i` (for `n = 0`) and `intact_bonds_j` (for `n = 1`). -/
def intact_bonds [FloorRing R] (k : BondStatusPD R) (n : Nat) : Nat :=
  toUnsignedInt (k._serialized_solution (k.dof n))

/-- The local `insufficient_bonds` after lines 80-100. -/
def insufficient_bonds [FloorRing R] (k : BondStatusPD R) : Bool :=
  if k._limit_damage == true then
    if k.intact_bonds 0 ≤ k._dim ∨ k.intact_bonds 1 ≤ k._dim then true
    else false
  else false

/-- The local `avg_surf_corr_factor` after lines 102-114. -/
def avg_surf_corr_factor (k : BondStatusPD R) : R :=
  if k._surface_correction == true then
    let surf_corr_factor_i := k.avgVolumeSum / k.volumeSum (k.node_id 0)
    let surf_corr_factor_j := k.avgVolumeSum / k.volumeSum (k.node_id 1)
    0.5 * (surf_corr_factor_i + surf_corr_factor_j)
  else 1.0

/-- The local `avg_stress` of line 126. -/
def avg_stress (k : BondStatusPD R) : RankTwoTensor R :=
  (0.5 : R) • (k._stress 0 + k._stress 1)

/-- The local `val` after the `switch` of lines 116-141.  `symmetricEigenvalues A`
is the content of `eigvals` after `A.symmetricEigenvalues(eigvals)`; that routine
belongs to `RankTwoTensor` and is a parameter here. -/
def val (symmetricEigenvalues : RankTwoTensor R → Fin LIBMESH_DIM → R)
    (k : BondStatusPD R) : R :=
  match k._failure_criterion with
  | FailureCriterion.CriticalStretch => k._mechanical_stretch 0
  | FailureCriterion.MaximumPrincipalStress =>
    let avg_stress := k.avg_stress
    let eigvals : Fin LIBMESH_DIM → R := fun _ => 0.0
    let eigvals := if k.bond_status > 0.5 then symmetricEigenvalues avg_stress else eigvals
    eigvals ⟨LIBMESH_DIM - 1, by decide⟩

/-- The method `BondStatusPD::computeValue`, lines 73-154. -/
def computeValue [FloorRing R] (symmetricEigenvalues : RankTwoTensor R → Fin LIBMESH_DIM → R)
    (k : BondStatusPD R) : Except MooseException R :=
  if k._t > 0.04 then
    Except.error ⟨"Moose exception from BondStatusPD"⟩
  else
    let insufficient_bonds := k.insufficient_bonds
    let avg_surf_corr_factor := k.avg_surf_corr_factor
    let val := k.val symmetricEigenvalues
    if k.bond_status > 0.5 ∧ val < k._critical_val 0 * avg_surf_corr_factor then
      Except.ok 1.0
    else if k.bond_status > 0.5 ∧ insufficient_bonds == true then
      Except.ok 1.0
    else
      Except.ok 0.0

/-- A sample bond over `ℚ`: time `0.01`, criterion `CriticalStretch`, status `1`,
stretch `1/100` below the critical value `1/50`. -/
def sampleBond : BondStatusPD ℚ where
  _t := 1 / 100
  _failure_criterion := FailureCriterion.CriticalStretch
  bond_status := 1
  _critical_val := fun _ => 1 / 50
  _mechanical_stretch := fun _ => 1 / 100
  _stress := fun _ => 0
  _surface_correction := false
  _limit_damage := false
  _dim := 2
  node_id := fun n => n
  dof := fun n => n
  _serialized_solution := fun _ => 5
  avgVolumeSum := 1
  volumeSum := fun _ => 1

/-- An eigenvalue routine for evaluation on diagonal tensors over `ℚ`: the
diagonal entries as stored. -/
def diagEntries (A : RankTwoTensor ℚ) : Fin LIBMESH_DIM → ℚ := fun i => A i i

/-- A bond over `ℝ` with criterion `MaximumPrincipalStress`, status `1` and end-point
stresses `diag(1,2,3)` and `diag(3,4,7)`, whose average is `diag(2,3,5)`. -/
noncomputable def stressedBond : BondStatusPD ℝ where
  _t := 1 / 100
  _failure_criterion := FailureCriterion.MaximumPrincipalStress
  bond_status := 1
  _critical_val := fun _ => 6
  _mechanical_stretch := fun _ => 1 / 100
  _stress := fun n => if n = 0 then Matrix.diagonal ![1, 2, 3] else Matrix.diagonal ![3, 4, 7]
  _surface_correction := false
  _limit_damage := false
  _dim := 2
  node_id := fun n => n
  dof := fun n => n
  _serialized_solution := fun _ => 5
  avgVolumeSum := 1
  volumeSum := fun _ => 1

/-- A bond over `ℚ` at time `0.05`, past the threshold. -/
def lateBond : BondStatusPD ℚ := { sampleBond with _t := 1 / 20 }

end BondStatusPD

/-! ## Part 2: the eigenvalue routine of `RankTwoTensor`, modelled from the specification -/

namespace RankTwoTensor

section Invariants

variable {R : Type} [Field R]

/-- Modelled from the spec: `RankTwoTensor::tr` (called as `m3.tr()` in the unit test;
its body is in `RankTwoTensor.C`, which is missing).  Spec 4.4: "trace (I1 = ΣA_ii)". -/
def tr (A : RankTwoTensor R) : R := A 0 0 + A 1 1 + A 2 2

/-- Modelled from the spec: the deviatoric part of a tensor, "the tensor minus its
isotropic (trace/3 × identity) component" (glossary); `RankTwoTensor.C` is missing. -/
def deviatoric (A : RankTwoTensor R) : RankTwoTensor R :=
  fun i j => A i j - if i = j then tr A / 3 else 0

/-- Modelled from the spec: `RankTwoTensor::secondInvariant` (missing
`RankTwoTensor.C`), the "second invariant of the deviator (J2)" of spec 4.4: half the
sum of the squared entries of the deviatoric part. -/
def secondInvariant (A : RankTwoTensor R) : R :=
  let s := deviatoric A
  (s 0 0 * s 0 0 + s 0 1 * s 0 1 + s 0 2 * s 0 2 +
   s 1 0 * s 1 0 + s 1 1 * s 1 1 + s 1 2 * s 1 2 +
   s 2 0 * s 2 0 + s 2 1 * s 2 1 + s 2 2 * s 2 2) / 2

/-- Modelled from the spec: `RankTwoTensor::thirdInvariant` (missing
`RankTwoTensor.C`), the "third invariant of the deviator (J3)" of spec 4.4: the
determinant of the deviatoric part. -/
def thirdInvariant (A : RankTwoTensor R) : R :=
  let s := deviatoric A
  s 0 0 * (s 1 1 * s 2 2 - s 1 2 * s 2 1) - s 0 1 * (s 1 0 * s 2 2 - s 1 2 * s 2 0) +
    s 0 2 * (s 1 0 * s 2 1 - s 1 1 * s 2 0)

end Invariants

/-- Modelled from the spec: `RankTwoTensor::sin3Lode` (missing `RankTwoTensor.C`), which
spec 4.1 calls "the normalized third invariant ratio" and spec 4.4 the normalized
"sin(3·Lode angle)" quantity derived from J3.  The spec gives no constants; the
normalisation here is the one under which the quantity is the sine of three times the
angle of the closed form of spec 4.1 with the phase offsets of the unit test
`someIdentities`: `-(3√3/2)·J3 / J2^(3/2)`. -/
noncomputable def sin3Lode (A : RankTwoTensor ℝ) : ℝ :=
  -1.5 * Real.sqrt 3 * thirdInvariant A / Real.sqrt (secondInvariant A) ^ 3

/-- Modelled from the spec: the clamping of spec 4.1, "guard the asin argument by
clamping to [-1,1]". -/
def clamp {R : Type} [LinearOrder R] (x lo hi : R) : R := max lo (min x hi)

/-- Modelled from the spec: the Lode angle of spec 4.1,
"θ = (1/3)·asin(clamp(sin3Lode, -1, 1))". -/
noncomputable def lodeAngle (A : RankTwoTensor ℝ) : ℝ :=
  (1 / 3) * Real.arcsin (clamp (sin3Lode A) (-1) 1)

/-- Modelled from the spec: `RankTwoTensor::symmetricEigenvalues` (missing
`RankTwoTensor.C`); the result is the content of `eigvals` after the call.  Spec 4.1:
"λ_k = (2/√3)·√(J2)·sin(θ + offset_k) + I1/3", and "when J2 ≈ 0 (isotropic tensor), all
three eigenvalues equal I1/3" (in exact arithmetic: when `J2 <= 0`).  The offsets
`-2π/3, 0, +2π/3` for the entries `0, 1, 2` are those of the unit test
`someIdentities`. -/
noncomputable def symmetricEigenvalues (A : RankTwoTensor ℝ) : Fin 3 → ℝ :=
  let mean := tr A / 3
  let J2 := secondInvariant A
  if J2 ≤ 0 then
    fun _ => mean
  else
    let theta := lodeAngle A
    let shear := Real.sqrt J2
    ![2 * shear * Real.sin (theta - 2 * Real.pi / 3) / Real.sqrt 3 + mean,
      2 * shear * Real.sin theta / Real.sqrt 3 + mean,
      2 * shear * Real.sin (theta + 2 * Real.pi / 3) / Real.sqrt 3 + mean]

/-- The tensor `m0` of the unit test `symmetricEigenvalues`: the zero tensor. -/
def m0 : RankTwoTensor ℝ := !![0, 0, 0; 0, 0, 0; 0, 0, 0]

/-- The tensor `m2` of the unit test: `diag(1,2,3)`. -/
def m2 : RankTwoTensor ℝ := !![1, 0, 0; 0, 2, 0; 0, 0, 3]

/-- The tensor `m3` of the unit test. -/
def m3 : RankTwoTensor ℝ := !![1, 2, 3; 2, -5, -6; 3, -6, 9]

end RankTwoTensor

/-! ## Theorems on `BondStatusPD::computeValue` -/

namespace BondStatusPD

variable {R : Type} [LinearOrderedField R]

/-- The literals `0.0` and `1.0` returned by `computeValue` differ. -/
theorem lit_zero_ne_one : ¬ ((0.0 : R) = 1.0) := by norm_num

/-- C8. For time `_t <= 0.04`, `computeValue` returns `1.0` exactly when the bond
status is `> 0.5` and (`val < _critical_val[0] * avg_surf_corr_factor` or
`insufficient_bonds`), and returns `0.0` otherwise; `avg_surf_corr_factor` is `1.0`
without surface correction and
`0.5 * (avgVolumeSum / volumeSum(i) + avgVolumeSum / volumeSum(j))` with it;
`insufficient_bonds` holds exactly when `limit_damage` is set and the intact-bond
count of node `i` or of node `j` is `<= _dim`; a bond of status `<= 0.5` is
returned as `0.0`. -/
theorem computeValue_returns_one_iff [FloorRing R]
    (symmetricEigenvalues : RankTwoTensor R → Fin LIBMESH_DIM → R) (k : BondStatusPD R)
    (ht : k._t ≤ 0.04) :
    (computeValue symmetricEigenvalues k = Except.ok 1.0 ↔
        (k.bond_status > 0.5 ∧
          (k.val symmetricEigenvalues < k._critical_val 0 * k.avg_surf_corr_factor ∨
            k.insufficient_bonds = true))) ∧
      (¬ (k.bond_status > 0.5 ∧
          (k.val symmetricEigenvalues < k._critical_val 0 * k.avg_surf_corr_factor ∨
            k.insufficient_bonds = true)) →
        computeValue symmetricEigenvalues k = Except.ok 0.0) ∧
      (k._surface_correction = false → k.avg_surf_corr_factor = 1.0) ∧
      (k._surface_correction = true →
        k.avg_surf_corr_factor =
          0.5 * (k.avgVolumeSum / k.volumeSum (k.node_id 0) +
                 k.avgVolumeSum / k.volumeSum (k.node_id 1))) ∧
      (k.insufficient_bonds = true ↔
        k._limit_damage = true ∧ (k.intact_bonds 0 ≤ k._dim ∨ k.intact_bonds 1 ≤ k._dim)) ∧
      (k.bond_status ≤ 0.5 → computeValue symmetricEigenvalues k = Except.ok 0.0) := by
  have hnt : ¬ k._t > 0.04 := not_lt.mpr ht
  refine ⟨?_, ?_, ?_, ?_, ?_, ?_⟩
  · unfold computeValue
    simp only [hnt, if_false, beq_iff_eq]
    by_cases hs : k.bond_status > 0.5
    · by_cases hv : k.val symmetricEigenvalues < k._critical_val 0 * k.avg_surf_corr_factor
      · simp [hs, hv]
      · by_cases hi : k.insufficient_bonds = true
        · simp [hs, hv, hi]
        · simp [hs, hv, hi, lit_zero_ne_one]
    · simp [hs, lit_zero_ne_one]
  · intro hn
    unfold computeValue
    simp only [hnt, if_false, beq_iff_eq]
    by_cases hs : k.bond_status > 0.5
    · have h1 : ¬ k.val symmetricEigenvalues < k._critical_val 0 * k.avg_surf_corr_factor :=
        fun h => hn ⟨hs, Or.inl h⟩
      have h2 : ¬ k.insufficient_bonds = true := fun h => hn ⟨hs, Or.inr h⟩
      simp [hs, h1, h2]
    · simp [hs]
  · intro h
    simp [avg_surf_corr_factor, h]
  · intro h
    simp [avg_surf_corr_factor, h]
  · unfold insufficient_bonds
    by_cases hl : k._limit_damage = true
    · by_cases hb : k.intact_bonds 0 ≤ k._dim ∨ k.intact_bonds 1 ≤ k._dim
      · simp [hl, hb]
      · simp [hl, hb]
    · simp [hl]
  · intro hle
    have hs : ¬ k.bond_status > 0.5 := not_lt.mpr hle
    unfold computeValue
    simp [hnt, hs]

/-- The theorem of C8 at the sample bond, whose time is `0.01`. -/
theorem computeValue_returns_one_iff_witness :
    sampleBond._t ≤ 0.04 ∧ computeValue diagEntries sampleBond = Except.ok 1.0 := by
  have ht : sampleBond._t ≤ 0.04 := by norm_num [sampleBond]
  refine ⟨ht, ?_⟩
  refine (computeValue_returns_one_iff diagEntries sampleBond ht).1.mpr ⟨?_, Or.inl ?_⟩
  · norm_num [sampleBond]
  · norm_num [sampleBond, val, avg_surf_corr_factor]

/-- The last of three ascending values whose factors make up a cubic is a root of the
cubic, and no root of the cubic exceeds it. -/
theorem last_is_largest_root (e0 e1 e2 : R) (p : R → R)
    (hp : ∀ x, p x = (e0 - x) * (e1 - x) * (e2 - x)) (h01 : e0 ≤ e1) (h12 : e1 ≤ e2) :
    p e2 = 0 ∧ ∀ x, p x = 0 → x ≤ e2 := by
  constructor
  · rw [hp, sub_self, mul_zero]
  · intro x hx
    rw [hp] at hx
    rcases mul_eq_zero.mp hx with h | h
    · rcases mul_eq_zero.mp h with h0 | h1
      · have : x = e0 := (sub_eq_zero.mp h0).symm
        linarith
      · have : x = e1 := (sub_eq_zero.mp h1).symm
        linarith
    · exact le_of_eq (sub_eq_zero.mp h).symm

/-- When no exception is raised, `computeValue` returns `1.0` exactly when the status is
`> 0.5` and `val` is below the threshold or the bonds are insufficient. -/
theorem computeValue_compares_val [FloorRing R]
    (symmetricEigenvalues : RankTwoTensor R → Fin LIBMESH_DIM → R) (k : BondStatusPD R)
    (hnt : ¬ k._t > 0.04) :
    computeValue symmetricEigenvalues k = Except.ok 1.0 ↔
      (k.bond_status > 0.5 ∧
        (k.val symmetricEigenvalues < k._critical_val 0 * k.avg_surf_corr_factor ∨
          k.insufficient_bonds = true)) := by
  unfold computeValue
  simp only [hnt, if_false, beq_iff_eq]
  by_cases hs : k.bond_status > 0.5
  · by_cases hv : k.val symmetricEigenvalues < k._critical_val 0 * k.avg_surf_corr_factor
    · simp [hs, hv]
    · by_cases hi : k.insufficient_bonds = true
      · simp [hs, hv, hi]
      · simp [hs, hv, hi, lit_zero_ne_one]
  · simp [hs, lit_zero_ne_one]

/-- C9. With criterion `MaximumPrincipalStress` and bond status `> 0.5`, the value `val`
that `computeValue` compares against the critical threshold is the last entry (index
`LIBMESH_DIM - 1`) of the result of `symmetricEigenvalues` on the average stress
`0.5 * (stress[0] + stress[1])`.  Whenever that result is ascending, no entry exceeds
`val`; whenever it is moreover the eigenvalues of the average stress (its entries
factor `det(avg - x*I)`), `val` is an eigenvalue of the average stress and no
eigenvalue exceeds it.  With status `<= 0.5` the value is `0`, and with criterion
`CriticalStretch` it is `mechanical_stretch[0]`. -/
theorem val_eq_largest_principal_stress [FloorRing R]
    (symmetricEigenvalues : RankTwoTensor R → Fin LIBMESH_DIM → R) (k : BondStatusPD R) :
    (k._failure_criterion = FailureCriterion.MaximumPrincipalStress →
        (k.bond_status > 0.5 →
          k.val symmetricEigenvalues =
              symmetricEigenvalues ((0.5 : R) • (k._stress 0 + k._stress 1))
                ⟨LIBMESH_DIM - 1, by decide⟩ ∧
            ((∀ i j : Fin LIBMESH_DIM, i ≤ j →
                symmetricEigenvalues ((0.5 : R) • (k._stress 0 + k._stress 1)) i ≤
                  symmetricEigenvalues ((0.5 : R) • (k._stress 0 + k._stress 1)) j) →
              (∀ i : Fin LIBMESH_DIM,
                symmetricEigenvalues ((0.5 : R) • (k._stress 0 + k._stress 1)) i ≤
                  k.val symmetricEigenvalues) ∧
              ((∀ x : R,
                  Matrix.det ((0.5 : R) • (k._stress 0 + k._stress 1)
                      - x • (1 : Matrix (Fin 3) (Fin 3) R)) =
                    (symmetricEigenvalues ((0.5 : R) • (k._stress 0 + k._stress 1))
                        ⟨0, by decide⟩ - x) *
                      (symmetricEigenvalues ((0.5 : R) • (k._stress 0 + k._stress 1))
                        ⟨1, by decide⟩ - x) *
                      (symmetricEigenvalues ((0.5 : R) • (k._stress 0 + k._stress 1))
                        ⟨2, by decide⟩ - x)) →
                Matrix.det ((0.5 : R) • (k._stress 0 + k._stress 1)
                    - k.val symmetricEigenvalues • (1 : Matrix (Fin 3) (Fin 3) R)) = 0 ∧
                  ∀ x : R,
                    Matrix.det ((0.5 : R) • (k._stress 0 + k._stress 1)
                        - x • (1 : Matrix (Fin 3) (Fin 3) R)) = 0 →
                      x ≤ k.val symmetricEigenvalues))) ∧
        (k.bond_status ≤ 0.5 → k.val symmetricEigenvalues = 0)) ∧
      (k._failure_criterion = FailureCriterion.CriticalStretch →
        k.val symmetricEigenvalues = k._mechanical_stretch 0) ∧
      (k._t ≤ 0.04 →
        (computeValue symmetricEigenvalues k = Except.ok 1.0 ↔
          (k.bond_status > 0.5 ∧
            (k.val symmetricEigenvalues < k._critical_val 0 * k.avg_surf_corr_factor ∨
              k.insufficient_bonds = true)))) := by
  refine ⟨fun hc => ⟨fun hs => ?_, fun hle => ?_⟩, fun hc => ?_, fun ht => ?_⟩
  · have hv : k.val symmetricEigenvalues =
        symmetricEigenvalues ((0.5 : R) • (k._stress 0 + k._stress 1))
          ⟨LIBMESH_DIM - 1, by decide⟩ := by
      simp [val, hc, hs, avg_stress]
    refine ⟨hv, fun hasc => ⟨fun i => ?_, fun heig => ?_⟩⟩
    · rw [hv]
      apply hasc
      have hi : i.val < 3 := i.isLt
      exact Fin.mk_le_of_le_val (by simp [LIBMESH_DIM]; omega)
    · rw [hv]
      exact last_is_largest_root _ _ _ _ heig (hasc _ _ (by decide)) (hasc _ _ (by decide))
  · have hs : ¬ k.bond_status > 0.5 := not_lt.mpr hle
    simp only [val, hc, hs, if_false]
    norm_num
  · simp [val, hc]
  · exact computeValue_compares_val symmetricEigenvalues k (not_lt.mpr ht)

/-- C10. `computeValue` raises the `MooseException` "Moose exception from BondStatusPD"
exactly when `_t > 0.04`; the outcome is then the same for every other content of the
kernel state and every eigenvalue routine (nothing but `_t` is consulted); and for
every `_t <= 0.04` it returns a value. -/
theorem computeValue_throws_iff [FloorRing R]
    (symmetricEigenvalues : RankTwoTensor R → Fin LIBMESH_DIM → R) (k : BondStatusPD R) :
    (computeValue symmetricEigenvalues k =
          Except.error ⟨"Moose exception from BondStatusPD"⟩ ↔ k._t > 0.04) ∧
      ((∃ e, computeValue symmetricEigenvalues k = Except.error e) ↔ k._t > 0.04) ∧
      (k._t > 0.04 →
        ∀ (symmetricEigenvalues2 : RankTwoTensor R → Fin LIBMESH_DIM → R)
          (k2 : BondStatusPD R), k2._t = k._t →
          computeValue symmetricEigenvalues2 k2 =
            Except.error ⟨"Moose exception from BondStatusPD"⟩) ∧
      (k._t ≤ 0.04 → ∃ v, computeValue symmetricEigenvalues k = Except.ok v) := by
  have hret : ¬ k._t > 0.04 → ∃ v, computeValue symmetricEigenvalues k = Except.ok v := by
    intro hnt
    unfold computeValue
    simp only [hnt, if_false]
    split_ifs <;> exact ⟨_, rfl⟩
  refine ⟨?_, ?_, ?_, fun hle => hret (not_lt.mpr hle)⟩
  · constructor
    · intro h
      by_contra hnt
      obtain ⟨v, hv⟩ := hret hnt
      rw [hv] at h
      exact Except.noConfusion h
    · intro ht
      simp [computeValue, ht]
  · constructor
    · rintro ⟨e, h⟩
      by_contra hnt
      obtain ⟨v, hv⟩ := hret hnt
      rw [hv] at h
      exact Except.noConfusion h
    · intro ht
      exact ⟨⟨"Moose exception from BondStatusPD"⟩, by simp [computeValue, ht]⟩
  · intro ht s2 k2 h2
    have ht2 : k2._t > 0.04 := by rw [h2]; exact ht
    simp [computeValue, ht2]

/-- At time `0.05` the sample bond raises. -/
theorem computeValue_throws_iff_witness :
    computeValue diagEntries lateBond = Except.error ⟨"Moose exception from BondStatusPD"⟩ :=
  (computeValue_throws_iff diagEntries lateBond).1.mpr (by norm_num [lateBond])

end BondStatusPD

/-! ## Theorems on the modelled `symmetricEigenvalues` -/

namespace RankTwoTensor

/-- The Lode angle lies in `[-π/6, π/6]`, whatever `sin3Lode` is. -/
theorem lodeAngle_mem (A : RankTwoTensor ℝ) :
    -(Real.pi / 6) ≤ lodeAngle A ∧ lodeAngle A ≤ Real.pi / 6 := by
  unfold lodeAngle
  have h1 := Real.neg_pi_div_two_le_arcsin (clamp (sin3Lode A) (-1) 1)
  have h2 := Real.arcsin_le_pi_div_two (clamp (sin3Lode A) (-1) 1)
  constructor <;> linarith

/-- On `[-π/6, π/6]` the three phase-shifted sines are ordered. -/
theorem sin_shift_le (t : ℝ) (h1 : -(Real.pi / 6) ≤ t) (h2 : t ≤ Real.pi / 6) :
    Real.sin (t - 2 * Real.pi / 3) ≤ Real.sin t ∧ Real.sin t ≤ Real.sin (t + 2 * Real.pi / 3) := by
  have hpi := Real.pi_pos
  have hs : 0 ≤ Real.sin (Real.pi / 3) := by
    rw [Real.sin_pi_div_three]; positivity
  constructor
  · have h := Real.sin_sub_sin t (t - 2 * Real.pi / 3)
    have e1 : (t - (t - 2 * Real.pi / 3)) / 2 = Real.pi / 3 := by ring
    have e2 : (t + (t - 2 * Real.pi / 3)) / 2 = t - Real.pi / 3 := by ring
    rw [e1, e2] at h
    have hc : 0 ≤ Real.cos (t - Real.pi / 3) :=
      Real.cos_nonneg_of_mem_Icc ⟨by linarith, by linarith⟩
    nlinarith [mul_nonneg hs hc]
  · have h := Real.sin_sub_sin (t + 2 * Real.pi / 3) t
    have e1 : (t + 2 * Real.pi / 3 - t) / 2 = Real.pi / 3 := by ring
    have e2 : (t + 2 * Real.pi / 3 + t) / 2 = t + Real.pi / 3 := by ring
    rw [e1, e2] at h
    have hc : 0 ≤ Real.cos (t + Real.pi / 3) :=
      Real.cos_nonneg_of_mem_Icc ⟨by linarith, by linarith⟩
    nlinarith [mul_nonneg hs hc]

/-- The three values of `symmetricEigenvalues` are ordered, in both branches. -/
theorem symmetricEigenvalues_sorted (A : RankTwoTensor ℝ) :
    symmetricEigenvalues A 0 ≤ symmetricEigenvalues A 1 ∧
      symmetricEigenvalues A 1 ≤ symmetricEigenvalues A 2 := by
  unfold symmetricEigenvalues
  by_cases hJ : secondInvariant A ≤ 0
  · simp [hJ]
  · simp only [hJ, if_false]
    obtain ⟨h1, h2⟩ := lodeAngle_mem A
    obtain ⟨s1, s2⟩ := sin_shift_le (lodeAngle A) h1 h2
    have hsh : 0 ≤ Real.sqrt (secondInvariant A) := Real.sqrt_nonneg _
    have h3 : 0 < Real.sqrt 3 := Real.sqrt_pos.mpr (by norm_num)
    simp only [Matrix.cons_val_zero, Matrix.cons_val_one, Matrix.head_cons, Matrix.cons_val_two,
      Matrix.tail_cons]
    constructor
    · have : 2 * Real.sqrt (secondInvariant A) * Real.sin (lodeAngle A - 2 * Real.pi / 3) / Real.sqrt 3
          ≤ 2 * Real.sqrt (secondInvariant A) * Real.sin (lodeAngle A) / Real.sqrt 3 := by
        apply div_le_div_of_nonneg_right _ h3.le
        exact mul_le_mul_of_nonneg_left s1 (by positivity)
      linarith
    · have : 2 * Real.sqrt (secondInvariant A) * Real.sin (lodeAngle A) / Real.sqrt 3
          ≤ 2 * Real.sqrt (secondInvariant A) * Real.sin (lodeAngle A + 2 * Real.pi / 3) / Real.sqrt 3 := by
        apply div_le_div_of_nonneg_right _ h3.le
        exact mul_le_mul_of_nonneg_left s2 (by positivity)
      linarith



/-- Spectral theorem, for 3x3: the characteristic determinant of a real symmetric
matrix splits into real linear factors. -/
theorem det_sub_eq_prod_eigenvalues (A : Matrix (Fin 3) (Fin 3) ℝ) (hA : A.IsHermitian) (x : ℝ) :
    Matrix.det (x • (1 : Matrix (Fin 3) (Fin 3) ℝ) - A) = ∏ i, (x - hA.eigenvalues i) := by
  set U : Matrix (Fin 3) (Fin 3) ℝ := (hA.eigenvectorUnitary : Matrix (Fin 3) (Fin 3) ℝ) with hU
  have hUU : U * star U = 1 := (Matrix.mem_unitaryGroup_iff).mp (hA.eigenvectorUnitary).2
  have hspec : A = U * Matrix.diagonal hA.eigenvalues * star U := by
    have := hA.spectral_theorem
    simpa using this
  have h1 : x • (1 : Matrix (Fin 3) (Fin 3) ℝ) - A
      = U * Matrix.diagonal (fun i => x - hA.eigenvalues i) * star U := by
    have hd : Matrix.diagonal (fun i => x - hA.eigenvalues i)
        = x • (1 : Matrix (Fin 3) (Fin 3) ℝ) - Matrix.diagonal hA.eigenvalues := by
      ext i j
      by_cases hij : i = j
      · subst hij; simp
      · simp [Matrix.diagonal_apply_ne _ hij, Matrix.one_apply_ne hij]
    rw [hd, Matrix.mul_sub, Matrix.sub_mul, ← hspec, Matrix.mul_smul, Matrix.mul_one,
      Matrix.smul_mul, hUU]
  rw [h1, Matrix.det_mul_right_comm, hUU, one_mul, Matrix.det_diagonal]


/-- Entries of a symmetric tensor across the diagonal agree. -/
theorem isSymm_apply {A : RankTwoTensor ℝ} (hA : A.IsSymm) (i j : Fin 3) : A i j = A j i :=
  (Matrix.IsSymm.apply hA i j).symm

/-- The characteristic determinant of a symmetric tensor is the depressed cubic
`y^3 - J2*y - J3` in `y = x - tr/3`. -/
theorem det_sub_eq_invariants (A : RankTwoTensor ℝ) (hA : A.IsSymm) (x : ℝ) :
    Matrix.det (x • (1 : Matrix (Fin 3) (Fin 3) ℝ) - A)
      = (x - tr A / 3) ^ 3 - secondInvariant A * (x - tr A / 3) - thirdInvariant A := by
  have h10 := isSymm_apply hA 1 0
  have h20 := isSymm_apply hA 2 0
  have h21 := isSymm_apply hA 2 1
  rw [Matrix.det_fin_three]
  simp only [secondInvariant, thirdInvariant, deviatoric, tr, Matrix.sub_apply, Matrix.smul_apply,
    Matrix.one_apply, smul_eq_mul, h10, h20, h21]
  simp
  ring

/-- The discriminant `4*J2^3 - 27*J3^2` of that cubic is nonnegative for a symmetric
tensor, since all its roots are real. -/
theorem discriminant_nonneg (A : RankTwoTensor ℝ) (hA : A.IsSymm) :
    27 * thirdInvariant A ^ 2 ≤ 4 * secondInvariant A ^ 3 := by
  have hH : Matrix.IsHermitian A := by
    unfold Matrix.IsHermitian
    rw [Matrix.conjTranspose_eq_transpose_of_trivial]
    exact hA
  have key : ∀ x : ℝ, (x - tr A / 3) ^ 3 - secondInvariant A * (x - tr A / 3) - thirdInvariant A
      = (x - hH.eigenvalues 0) * (x - hH.eigenvalues 1) * (x - hH.eigenvalues 2) := by
    intro x
    rw [← det_sub_eq_invariants A hA x, det_sub_eq_prod_eigenvalues A hH x, Fin.prod_univ_three]
  set m := tr A / 3
  set J2 := secondInvariant A
  set J3 := thirdInvariant A
  set u0 := hH.eigenvalues 0 - m with hu0
  set u1 := hH.eigenvalues 1 - m with hu1
  set u2 := hH.eigenvalues 2 - m with hu2
  have k0 := key m
  have k1 := key (m + 1)
  have km := key (m - 1)
  have e0 : hH.eigenvalues 0 = u0 + m := by rw [hu0]; ring
  have e1 : hH.eigenvalues 1 = u1 + m := by rw [hu1]; ring
  have e2 : hH.eigenvalues 2 = u2 + m := by rw [hu2]; ring
  rw [e0, e1, e2] at k0 k1 km
  have h3 : J3 = u0 * u1 * u2 := by linear_combination -k0
  have hs : u2 = -u0 - u1 := by linear_combination (1/2) * k1 + (1/2) * km - k0
  have h2 : J2 = -(u0 * u1 + u1 * u2 + u0 * u2) := by
    linear_combination (1/2) * km - (1/2) * k1
  rw [h2, h3, hs]
  nlinarith [sq_nonneg ((u0 - u1) * (2 * u0 + u1) * (u0 + 2 * u1))]


/-- The sines shifted by `2π/3` through `sin` and `cos` of the angle. -/
theorem sin_shift_expand (t : ℝ) :
    Real.sin (t - 2 * Real.pi / 3) = -(1 / 2) * Real.sin t - Real.sqrt 3 / 2 * Real.cos t ∧
      Real.sin (t + 2 * Real.pi / 3) = -(1 / 2) * Real.sin t + Real.sqrt 3 / 2 * Real.cos t := by
  have e : 2 * Real.pi / 3 = Real.pi - Real.pi / 3 := by ring
  have hc : Real.cos (2 * Real.pi / 3) = -(1 / 2) := by
    rw [e, Real.cos_pi_sub, Real.cos_pi_div_three]
  have hs : Real.sin (2 * Real.pi / 3) = Real.sqrt 3 / 2 := by
    rw [e, Real.sin_pi_sub, Real.sin_pi_div_three]
  constructor
  · rw [Real.sin_sub, hc, hs]; ring
  · rw [Real.sin_add, hc, hs]; ring

/-- Sum, sum of pairwise products and product of the three phase-shifted sines. -/
theorem sin_shift_symmetric_functions (t : ℝ) :
    Real.sin (t - 2 * Real.pi / 3) + Real.sin t + Real.sin (t + 2 * Real.pi / 3) = 0 ∧
      Real.sin (t - 2 * Real.pi / 3) * Real.sin t + Real.sin t * Real.sin (t + 2 * Real.pi / 3)
          + Real.sin (t - 2 * Real.pi / 3) * Real.sin (t + 2 * Real.pi / 3) = -(3 / 4) ∧
      Real.sin (t - 2 * Real.pi / 3) * Real.sin t * Real.sin (t + 2 * Real.pi / 3)
          = -(Real.sin (3 * t) / 4) := by
  obtain ⟨h1, h2⟩ := sin_shift_expand t
  have h3 : Real.sqrt 3 * Real.sqrt 3 = 3 := Real.mul_self_sqrt (by norm_num)
  have hsc := Real.sin_sq_add_cos_sq t
  rw [h1, h2, Real.sin_three_mul]
  refine ⟨by ring, ?_, ?_⟩
  · linear_combination (-(3 / 4) : ℝ) * hsc + (-(1 / 4) * Real.cos t ^ 2) * h3
  · linear_combination (-(3 / 4) * Real.sin t) * hsc + (-(1 / 4) * Real.sin t * Real.cos t ^ 2) * h3

/-- The second invariant is a sum of squares. -/
theorem secondInvariant_nonneg (A : RankTwoTensor ℝ) : 0 ≤ secondInvariant A := by
  simp only [secondInvariant]
  apply div_nonneg _ (by norm_num)
  have h := fun i j => mul_self_nonneg (deviatoric A i j)
  linarith [h 0 0, h 0 1, h 0 2, h 1 0, h 1 1, h 1 2, h 2 0, h 2 1, h 2 2]

/-- Clamping leaves a value of `[-1, 1]` unchanged. -/
theorem clamp_eq_self {x : ℝ} (h1 : -1 ≤ x) (h2 : x ≤ 1) : clamp x (-1) 1 = x := by
  unfold clamp
  rw [min_eq_left h2, max_eq_right h1]

/-- For a symmetric tensor with `J2 > 0` the ratio `sin3Lode` lies in `[-1, 1]`: the
clamp of the routine is inactive in exact arithmetic. -/
theorem sin3Lode_mem (A : RankTwoTensor ℝ) (hA : A.IsSymm) (hJ : 0 < secondInvariant A) :
    -1 ≤ sin3Lode A ∧ sin3Lode A ≤ 1 := by
  have hd := discriminant_nonneg A hA
  have hS : 0 < Real.sqrt (secondInvariant A) := Real.sqrt_pos.mpr hJ
  have hSS : Real.sqrt (secondInvariant A) ^ 2 = secondInvariant A := Real.sq_sqrt hJ.le
  have h3 : Real.sqrt 3 ^ 2 = 3 := Real.sq_sqrt (by norm_num)
  have hsq : sin3Lode A ^ 2 ≤ 1 := by
    unfold sin3Lode
    rw [div_pow, div_le_one (by positivity)]
    have : (Real.sqrt (secondInvariant A) ^ 3) ^ 2 = secondInvariant A ^ 3 := by
      rw [← pow_mul, mul_comm, pow_mul, hSS]
    rw [this]
    have : (-1.5 * Real.sqrt 3 * thirdInvariant A) ^ 2 = 27 / 4 * thirdInvariant A ^ 2 := by
      rw [mul_pow, mul_pow, h3]; norm_num
    rw [this]
    linarith
  have := abs_le_one_iff_mul_self_le_one.mpr (by nlinarith : sin3Lode A * sin3Lode A ≤ 1)
  exact abs_le.mp this

/-- The sine of three times the Lode angle is `sin3Lode`. -/
theorem sin_three_lodeAngle (A : RankTwoTensor ℝ) (hA : A.IsSymm) (hJ : 0 < secondInvariant A) :
    Real.sin (3 * lodeAngle A) = sin3Lode A := by
  obtain ⟨h1, h2⟩ := sin3Lode_mem A hA hJ
  unfold lodeAngle
  rw [clamp_eq_self h1 h2]
  have : 3 * (1 / 3 * Real.arcsin (sin3Lode A)) = Real.arcsin (sin3Lode A) := by ring
  rw [this, Real.sin_arcsin h1 h2]


/-- When `J2 <= 0` the deviatoric part vanishes. -/
theorem deviatoric_eq_zero (A : RankTwoTensor ℝ) (hJ : secondInvariant A ≤ 0) (i j : Fin 3) :
    deviatoric A i j = 0 := by
  have h := fun i j => mul_self_nonneg (deviatoric A i j)
  have hJ2 : (deviatoric A 0 0 * deviatoric A 0 0 + deviatoric A 0 1 * deviatoric A 0 1 +
      deviatoric A 0 2 * deviatoric A 0 2 + deviatoric A 1 0 * deviatoric A 1 0 +
      deviatoric A 1 1 * deviatoric A 1 1 + deviatoric A 1 2 * deviatoric A 1 2 +
      deviatoric A 2 0 * deviatoric A 2 0 + deviatoric A 2 1 * deviatoric A 2 1 +
      deviatoric A 2 2 * deviatoric A 2 2) / 2 ≤ 0 := hJ
  apply mul_self_eq_zero.mp
  apply le_antisymm _ (h i j)
  fin_cases i <;> fin_cases j <;> simp only [Fin.zero_eta, Fin.mk_one, Fin.reduceFinMk] <;>
    linarith [h 0 0, h 0 1, h 0 2, h 1 0, h 1 1, h 1 2, h 2 0, h 2 1, h 2 2]

/-- When `J2 <= 0` the third invariant vanishes. -/
theorem thirdInvariant_eq_zero (A : RankTwoTensor ℝ) (hJ : secondInvariant A ≤ 0) :
    thirdInvariant A = 0 := by
  simp only [thirdInvariant, deviatoric_eq_zero A hJ]
  ring

/-- The determinant `det(A - x*I)` through the invariants. -/
theorem det_sub_smul_one (A : RankTwoTensor ℝ) (hA : A.IsSymm) (x : ℝ) :
    Matrix.det (A - x • (1 : Matrix (Fin 3) (Fin 3) ℝ))
      = -((x - tr A / 3) ^ 3 - secondInvariant A * (x - tr A / 3) - thirdInvariant A) := by
  have h : A - x • (1 : Matrix (Fin 3) (Fin 3) ℝ) = -(x • (1 : Matrix (Fin 3) (Fin 3) ℝ) - A) :=
    (neg_sub _ _).symm
  rw [h, Matrix.det_neg, det_sub_eq_invariants A hA x, Fintype.card_fin]
  ring

/-- The values of `symmetricEigenvalues` factor `det(A - x*I)` for symmetric `A`. -/
theorem symmetricEigenvalues_det (A : RankTwoTensor ℝ) (hA : A.IsSymm) (x : ℝ) :
    Matrix.det (A - x • (1 : Matrix (Fin 3) (Fin 3) ℝ))
      = (symmetricEigenvalues A 0 - x) * (symmetricEigenvalues A 1 - x) *
          (symmetricEigenvalues A 2 - x) := by
  rw [det_sub_smul_one A hA x]
  unfold symmetricEigenvalues
  by_cases hJ : secondInvariant A ≤ 0
  · have h0 : secondInvariant A = 0 := le_antisymm hJ (secondInvariant_nonneg A)
    simp only [hJ, if_true]
    rw [thirdInvariant_eq_zero A hJ, h0]
    ring
  · simp only [hJ, if_false, Matrix.cons_val_zero, Matrix.cons_val_one, Matrix.head_cons,
      Matrix.cons_val_two, Matrix.tail_cons]
    have hJ' : 0 < secondInvariant A := not_le.mp hJ
    obtain ⟨hsum, hpair, hprod⟩ := sin_shift_symmetric_functions (lodeAngle A)
    rw [sin_three_lodeAngle A hA hJ'] at hprod
    have hS : 0 < Real.sqrt (secondInvariant A) := Real.sqrt_pos.mpr hJ'
    have hSS : Real.sqrt (secondInvariant A) ^ 2 = secondInvariant A := Real.sq_sqrt hJ'.le
    have hT : 0 < Real.sqrt 3 := Real.sqrt_pos.mpr (by norm_num)
    have hTT : Real.sqrt 3 ^ 2 = 3 := Real.sq_sqrt (by norm_num)
    set S := Real.sqrt (secondInvariant A) with hSdef
    set T := Real.sqrt 3 with hTdef
    set s0 := Real.sin (lodeAngle A - 2 * Real.pi / 3)
    set s1 := Real.sin (lodeAngle A)
    set s2 := Real.sin (lodeAngle A + 2 * Real.pi / 3)
    set m := tr A / 3
    set J3 := thirdInvariant A with hJ3
    have hg2 : (2 * S / T) ^ 2 = 4 * secondInvariant A / 3 := by
      rw [div_pow, mul_pow, hSS, hTT]; ring
    have hg3 : (2 * S / T) ^ 3 * sin3Lode A = -4 * J3 := by
      unfold sin3Lode
      rw [← hSdef, ← hTdef, ← hJ3]
      field_simp
      have : T ^ 3 = 3 * T := by rw [pow_succ, hTT]
      rw [this]
      norm_num
      ring
    have hexp : (2 * S * s0 / T + m - x) * (2 * S * s1 / T + m - x) * (2 * S * s2 / T + m - x)
        = -((x - m) ^ 3 - (2 * S / T) * (s0 + s1 + s2) * (x - m) ^ 2
            + (2 * S / T) ^ 2 * (s0 * s1 + s1 * s2 + s0 * s2) * (x - m)
            - (2 * S / T) ^ 3 * (s0 * s1 * s2)) := by
      field_simp
      ring
    rw [hexp, hsum, hpair, hprod, hg2]
    linear_combination ((1 / 4) : ℝ) * hg3


/-- Entries of `m0`. -/
theorem m0_apply (i j : Fin 3) : m0 i j = 0 := by
  fin_cases i <;> fin_cases j <;> rfl

/-- The zero tensor has the values `0, 0, 0`. -/
theorem symmetricEigenvalues_m0 (k : Fin 3) : symmetricEigenvalues m0 k = 0 := by
  have hJ : secondInvariant m0 ≤ 0 := by
    simp [secondInvariant, deviatoric, tr, m0_apply]
  unfold symmetricEigenvalues
  simp only [hJ, if_true]
  simp [tr, m0_apply]

/-- Entries of `m2`. -/
theorem m2_apply : m2 0 0 = 1 ∧ m2 0 1 = 0 ∧ m2 0 2 = 0 ∧ m2 1 0 = 0 ∧ m2 1 1 = 2 ∧
    m2 1 2 = 0 ∧ m2 2 0 = 0 ∧ m2 2 1 = 0 ∧ m2 2 2 = 3 :=
  ⟨rfl, rfl, rfl, rfl, rfl, rfl, rfl, rfl, rfl⟩

/-- The second invariant of `diag(1,2,3)` is `1`. -/
theorem secondInvariant_m2 : secondInvariant m2 = 1 := by
  obtain ⟨h00, h01, h02, h10, h11, h12, h20, h21, h22⟩ := m2_apply
  simp [secondInvariant, deviatoric, tr, h00, h01, h02, h10, h11, h12, h20, h21, h22]
  norm_num

/-- The third invariant of `diag(1,2,3)` is `0`. -/
theorem thirdInvariant_m2 : thirdInvariant m2 = 0 := by
  obtain ⟨h00, h01, h02, h10, h11, h12, h20, h21, h22⟩ := m2_apply
  simp [thirdInvariant, deviatoric, tr, h00, h01, h02, h10, h11, h12, h20, h21, h22]
  norm_num

/-- The Lode angle of `diag(1,2,3)` is `0`. -/
theorem lodeAngle_m2 : lodeAngle m2 = 0 := by
  have h : sin3Lode m2 = 0 := by
    unfold sin3Lode
    rw [thirdInvariant_m2]
    simp
  unfold lodeAngle
  rw [h, clamp_eq_self (by norm_num) (by norm_num), Real.arcsin_zero]
  ring

/-- The tensor `diag(1,2,3)` has the values `1, 2, 3`. -/
theorem symmetricEigenvalues_m2 :
    symmetricEigenvalues m2 0 = 1 ∧ symmetricEigenvalues m2 1 = 2 ∧
      symmetricEigenvalues m2 2 = 3 := by
  have hJ : ¬ secondInvariant m2 ≤ 0 := by rw [secondInvariant_m2]; norm_num
  have hT : 0 < Real.sqrt 3 := Real.sqrt_pos.mpr (by norm_num)
  have hTT : Real.sqrt 3 * Real.sqrt 3 = 3 := Real.mul_self_sqrt (by norm_num)
  have htr : tr m2 = 6 := by
    obtain ⟨h00, -, -, -, h11, -, -, -, h22⟩ := m2_apply
    simp only [tr, h00, h11, h22]; norm_num
  obtain ⟨h1, h2⟩ := sin_shift_expand 0
  unfold symmetricEigenvalues
  simp only [hJ, if_false]
  simp only [Matrix.cons_val_zero, Matrix.cons_val_one, Matrix.head_cons,
    Matrix.cons_val_two, Matrix.tail_cons, lodeAngle_m2, secondInvariant_m2, Real.sqrt_one, htr]
  rw [h1, h2, Real.sin_zero, Real.cos_zero]
  refine ⟨?_, ?_, ?_⟩
  · field_simp
    ring
  · norm_num
  · field_simp
    ring

/-- Where a cubic with sorted real roots is positive. -/
theorem cubic_pos_region {l0 l1 l2 x : ℝ} (h12 : l1 ≤ l2)
    (h : 0 < (l0 - x) * (l1 - x) * (l2 - x)) : x < l0 ∨ (l1 < x ∧ x < l2) := by
  by_cases hx : x < l0
  · exact Or.inl hx
  · right
    have h0 : l0 - x ≤ 0 := by linarith [not_lt.mp hx]
    constructor
    · by_contra hc
      have h1 : 0 ≤ l1 - x := by linarith [not_lt.mp hc]
      have h2 : 0 ≤ l2 - x := by linarith
      have := mul_nonpos_of_nonpos_of_nonneg h0 (mul_nonneg h1 h2)
      rw [← mul_assoc] at this
      linarith
    · by_contra hc
      have h2 : l2 - x ≤ 0 := by linarith [not_lt.mp hc]
      have h1 : l1 - x ≤ 0 := by linarith
      have := mul_nonpos_of_nonpos_of_nonneg h0 (mul_nonneg_of_nonpos_of_nonpos h1 h2)
      rw [← mul_assoc] at this
      linarith

/-- Where a cubic with sorted real roots is negative. -/
theorem cubic_neg_region {l0 l1 l2 x : ℝ} (h01 : l0 ≤ l1)
    (h : (l0 - x) * (l1 - x) * (l2 - x) < 0) : (l0 < x ∧ x < l1) ∨ l2 < x := by
  by_cases hx : l2 < x
  · exact Or.inr hx
  · left
    have h2 : 0 ≤ l2 - x := by linarith [not_lt.mp hx]
    constructor
    · by_contra hc
      have h0 : 0 ≤ l0 - x := by linarith [not_lt.mp hc]
      have h1 : 0 ≤ l1 - x := by linarith
      have := mul_nonneg (mul_nonneg h0 h1) h2
      linarith
    · by_contra hc
      have h1 : l1 - x ≤ 0 := by linarith [not_lt.mp hc]
      have h0 : l0 - x ≤ 0 := by linarith
      have := mul_nonneg (mul_nonneg_of_nonpos_of_nonpos h0 h1) h2
      linarith

/-- Three sign changes of a cubic with sorted roots enclose the roots in order. -/
theorem sorted_roots_isolated {l0 l1 l2 : ℝ} (a0 b0 a1 b1 a2 b2 : ℝ)
    (h01 : l0 ≤ l1) (h12 : l1 ≤ l2)
    (hab0 : a0 ≤ b0) (hb0 : b0 ≤ a1) (hab1 : a1 ≤ b1) (hb1 : b1 ≤ a2) (hab2 : a2 ≤ b2)
    (ha0 : 0 < (l0 - a0) * (l1 - a0) * (l2 - a0)) (hb0n : (l0 - b0) * (l1 - b0) * (l2 - b0) < 0)
    (ha1 : (l0 - a1) * (l1 - a1) * (l2 - a1) < 0) (hb1p : 0 < (l0 - b1) * (l1 - b1) * (l2 - b1))
    (ha2 : 0 < (l0 - a2) * (l1 - a2) * (l2 - a2)) (hb2 : (l0 - b2) * (l1 - b2) * (l2 - b2) < 0) :
    (a0 < l0 ∧ l0 < b0) ∧ (a1 < l1 ∧ l1 < b1) ∧ (a2 < l2 ∧ l2 < b2) := by
  rcases cubic_pos_region h12 ha0 with p0 | ⟨p0, p0'⟩ <;>
  rcases cubic_neg_region h01 hb0n with ⟨q0, q0'⟩ | q0 <;>
  rcases cubic_neg_region h01 ha1 with ⟨p1, p1'⟩ | p1 <;>
  rcases cubic_pos_region h12 hb1p with q1 | ⟨q1, q1'⟩ <;>
  rcases cubic_pos_region h12 ha2 with p2 | ⟨p2, p2'⟩ <;>
  rcases cubic_neg_region h01 hb2 with ⟨q2, q2'⟩ | q2 <;>
  first
    | exact ⟨⟨p0, q0⟩, ⟨p1', q1⟩, ⟨p2', q2⟩⟩
    | (exfalso; linarith)


/-- Entries of `m3`. -/
theorem m3_apply : m3 0 0 = 1 ∧ m3 0 1 = 2 ∧ m3 0 2 = 3 ∧ m3 1 0 = 2 ∧ m3 1 1 = -5 ∧
    m3 1 2 = -6 ∧ m3 2 0 = 3 ∧ m3 2 1 = -6 ∧ m3 2 2 = 9 :=
  ⟨rfl, rfl, rfl, rfl, rfl, rfl, rfl, rfl, rfl⟩

/-- The tensor `m3` is symmetric. -/
theorem m3_isSymm : Matrix.IsSymm m3 := by
  apply Matrix.IsSymm.ext
  intro i j
  fin_cases i <;> fin_cases j <;> rfl

/-- The characteristic determinant of `m3`. -/
theorem det_m3 (x : ℝ) :
    Matrix.det (m3 - x • (1 : Matrix (Fin 3) (Fin 3) ℝ)) = -x ^ 3 + 5 * x ^ 2 + 90 * x - 144 := by
  obtain ⟨h00, h01, h02, h10, h11, h12, h20, h21, h22⟩ := m3_apply
  rw [Matrix.det_fin_three]
  simp [Matrix.sub_apply, Matrix.smul_apply, h00, h01, h02, h10, h11, h12, h20, h21, h22]
  ring

/-- The values for `m3` are within `1e-4` of those expected by the unit test. -/
theorem symmetricEigenvalues_m3 :
    |symmetricEigenvalues m3 0 - (-8.17113)| ≤ 0.0001 ∧
      |symmetricEigenvalues m3 1 - 1.51145| ≤ 0.0001 ∧
      |symmetricEigenvalues m3 2 - 11.6597| ≤ 0.0001 := by
  obtain ⟨h01, h12⟩ := symmetricEigenvalues_sorted m3
  have hp : ∀ x : ℝ, (symmetricEigenvalues m3 0 - x) * (symmetricEigenvalues m3 1 - x) *
      (symmetricEigenvalues m3 2 - x) = -x ^ 3 + 5 * x ^ 2 + 90 * x - 144 := by
    intro x
    rw [← symmetricEigenvalues_det m3 m3_isSymm x, det_m3]
  have key := sorted_roots_isolated (-8.17123) (-8.17103) 1.51135 1.51155 11.6596 11.6598
    h01 h12
    (by norm_num) (by norm_num) (by norm_num) (by norm_num) (by norm_num)
    (by rw [hp]; norm_num) (by rw [hp]; norm_num) (by rw [hp]; norm_num)
    (by rw [hp]; norm_num) (by rw [hp]; norm_num) (by rw [hp]; norm_num)
  obtain ⟨⟨a0, b0⟩, ⟨a1, b1⟩, ⟨a2, b2⟩⟩ := key
  refine ⟨abs_le.mpr ⟨?_, ?_⟩, abs_le.mpr ⟨?_, ?_⟩, abs_le.mpr ⟨?_, ?_⟩⟩ <;> norm_num <;> linarith

/-- C1. For every 3x3 tensor `A` (in particular every symmetric one),
`symmetricEigenvalues` yields exactly three values, and they are in ascending order:
`eigvals[0] <= eigvals[1] <= eigvals[2]`, whichever branch of the routine is taken. -/
theorem symmetricEigenvalues_ascending (A : RankTwoTensor ℝ) :
    (symmetricEigenvalues A 0 ≤ symmetricEigenvalues A 1 ∧
        symmetricEigenvalues A 1 ≤ symmetricEigenvalues A 2) ∧
      ∀ i j : Fin 3, i ≤ j → symmetricEigenvalues A i ≤ symmetricEigenvalues A j := by
  obtain ⟨h01, h12⟩ := symmetricEigenvalues_sorted A
  refine ⟨⟨h01, h12⟩, fun i j hij => ?_⟩
  have h02 : symmetricEigenvalues A 0 ≤ symmetricEigenvalues A 2 := le_trans h01 h12
  fin_cases i <;> fin_cases j <;>
    first
      | exact le_refl _
      | exact h01
      | exact h12
      | exact h02
      | exact absurd hij (by decide)

/-- C2. For every symmetric 3x3 tensor `A` the three values of `symmetricEigenvalues`
are the eigenvalues of `A` counted with multiplicity: `det(A - x*I)` is the product of
the three factors `eigvals[k] - x` for every `x`.  The zero tensor gives `0, 0, 0`,
`diag(1,2,3)` gives `1, 2, 3`, and `[[1,2,3],[2,-5,-6],[3,-6,9]]` gives values within
`1e-4` of `-8.17113`, `1.51145` and `11.6597`. -/
theorem symmetricEigenvalues_are_eigenvalues :
    (∀ A : RankTwoTensor ℝ, A.IsSymm → ∀ x : ℝ,
        Matrix.det (A - x • (1 : Matrix (Fin 3) (Fin 3) ℝ))
          = (symmetricEigenvalues A 0 - x) * (symmetricEigenvalues A 1 - x) *
              (symmetricEigenvalues A 2 - x)) ∧
      (symmetricEigenvalues m0 0 = 0 ∧ symmetricEigenvalues m0 1 = 0 ∧
        symmetricEigenvalues m0 2 = 0) ∧
      (symmetricEigenvalues m2 0 = 1 ∧ symmetricEigenvalues m2 1 = 2 ∧
        symmetricEigenvalues m2 2 = 3) ∧
      (|symmetricEigenvalues m3 0 - (-8.17113)| ≤ 0.0001 ∧
        |symmetricEigenvalues m3 1 - 1.51145| ≤ 0.0001 ∧
        |symmetricEigenvalues m3 2 - 11.6597| ≤ 0.0001) := by
  refine ⟨fun A hA x => symmetricEigenvalues_det A hA x, ?_, symmetricEigenvalues_m2,
    symmetricEigenvalues_m3⟩
  exact ⟨symmetricEigenvalues_m0 0, symmetricEigenvalues_m0 1, symmetricEigenvalues_m0 2⟩

/-- The general part of C2 at the symmetric tensor `m3` of the unit test. -/
theorem symmetricEigenvalues_are_eigenvalues_witness :
    Matrix.IsSymm m3 ∧ ∀ x : ℝ,
      -x ^ 3 + 5 * x ^ 2 + 90 * x - 144
        = (symmetricEigenvalues m3 0 - x) * (symmetricEigenvalues m3 1 - x) *
            (symmetricEigenvalues m3 2 - x) :=
  ⟨m3_isSymm, fun x => by
    rw [← symmetricEigenvalues_are_eigenvalues.1 m3 m3_isSymm x, det_m3]⟩

end RankTwoTensor

/-! ## The compared value of `BondStatusPD::computeValue` with the modelled routine -/

namespace BondStatusPD

/-- The values of the modelled `RankTwoTensor.symmetricEigenvalues` are monotone in
the index. -/
theorem symmetricEigenvalues_mono (A : RankTwoTensor ℝ) (i j : Fin LIBMESH_DIM) (hij : i ≤ j) :
    RankTwoTensor.symmetricEigenvalues A i ≤ RankTwoTensor.symmetricEigenvalues A j := by
  obtain ⟨h01, h12⟩ := RankTwoTensor.symmetricEigenvalues_sorted A
  have h02 := le_trans h01 h12
  fin_cases i <;> fin_cases j <;>
    first
      | exact le_refl _
      | exact h01
      | exact h12
      | exact h02
      | exact absurd hij (by decide)

/-- The average of two symmetric stresses is symmetric. -/
theorem isSymm_avg (S0 S1 : RankTwoTensor ℝ) (h0 : S0.IsSymm) (h1 : S1.IsSymm) :
    ((0.5 : ℝ) • (S0 + S1)).IsSymm :=
  (h0.add h1).smul _

/-- With the modelled `RankTwoTensor.symmetricEigenvalues` as the routine, criterion
`MaximumPrincipalStress`, status `> 0.5` and symmetric end-point stresses, the compared
value is an eigenvalue of the average stress and no eigenvalue exceeds it. -/
theorem val_modelled_routine (k : BondStatusPD ℝ)
    (hc : k._failure_criterion = FailureCriterion.MaximumPrincipalStress)
    (hs : k.bond_status > 0.5) (h0 : (k._stress 0).IsSymm) (h1 : (k._stress 1).IsSymm) :
    Matrix.det ((0.5 : ℝ) • (k._stress 0 + k._stress 1)
        - k.val RankTwoTensor.symmetricEigenvalues • (1 : Matrix (Fin 3) (Fin 3) ℝ)) = 0 ∧
      ∀ x : ℝ,
        Matrix.det ((0.5 : ℝ) • (k._stress 0 + k._stress 1)
            - x • (1 : Matrix (Fin 3) (Fin 3) ℝ)) = 0 →
          x ≤ k.val RankTwoTensor.symmetricEigenvalues := by
  have hv : k.val RankTwoTensor.symmetricEigenvalues =
      RankTwoTensor.symmetricEigenvalues ((0.5 : ℝ) • (k._stress 0 + k._stress 1)) 2 := by
    simp [val, hc, hs, avg_stress, LIBMESH_DIM]
  obtain ⟨h01, h12⟩ :=
    RankTwoTensor.symmetricEigenvalues_sorted ((0.5 : ℝ) • (k._stress 0 + k._stress 1))
  rw [hv]
  exact last_is_largest_root _ _ _ _
    (RankTwoTensor.symmetricEigenvalues_det _ (isSymm_avg _ _ h0 h1)) h01 h12

/-- The average stress of `stressedBond` is `diag(2,3,5)`. -/
theorem avg_stressedBond :
    (0.5 : ℝ) • (stressedBond._stress 0 + stressedBond._stress 1)
      = Matrix.diagonal ![2, 3, 5] := by
  ext i j
  fin_cases i <;> fin_cases j <;> simp [stressedBond] <;> norm_num

/-- The characteristic determinant of the average stress of `stressedBond`. -/
theorem det_avg_stressedBond (x : ℝ) :
    Matrix.det ((0.5 : ℝ) • (stressedBond._stress 0 + stressedBond._stress 1)
        - x • (1 : Matrix (Fin 3) (Fin 3) ℝ)) = (2 - x) * (3 - x) * (5 - x) := by
  rw [avg_stressedBond, Matrix.det_fin_three]
  simp [Matrix.diagonal]

/-- The theorem of C9 at `stressedBond` with the modelled routine
`RankTwoTensor.symmetricEigenvalues`, whose result is ascending and factors the
characteristic determinant: the compared value is `5`, the largest eigenvalue of the
average stress `diag(2,3,5)`, it is below the threshold `6`, and `computeValue`
returns `1.0`. -/
theorem val_eq_largest_principal_stress_witness :
    stressedBond._failure_criterion = FailureCriterion.MaximumPrincipalStress ∧
      stressedBond.bond_status > 0.5 ∧
      stressedBond.val RankTwoTensor.symmetricEigenvalues = 5 ∧
      computeValue RankTwoTensor.symmetricEigenvalues stressedBond = Except.ok 1.0 := by
  have hc : stressedBond._failure_criterion = FailureCriterion.MaximumPrincipalStress := rfl
  have hs : stressedBond.bond_status > 0.5 := by norm_num [stressedBond]
  have hsym : ((0.5 : ℝ) • (stressedBond._stress 0 + stressedBond._stress 1)).IsSymm := by
    rw [avg_stressedBond]; exact Matrix.isSymm_diagonal _
  have h := val_eq_largest_principal_stress RankTwoTensor.symmetricEigenvalues stressedBond
  obtain ⟨-, hasc⟩ := h.1 hc |>.1 hs
  obtain ⟨-, heig⟩ := hasc (fun i j hij => symmetricEigenvalues_mono _ i j hij)
  obtain ⟨hroot, hmax⟩ :=
    heig (fun x => RankTwoTensor.symmetricEigenvalues_det _ hsym x)
  have h5 : (5 : ℝ) ≤ stressedBond.val RankTwoTensor.symmetricEigenvalues :=
    hmax 5 (by rw [det_avg_stressedBond]; norm_num)
  have hv : stressedBond.val RankTwoTensor.symmetricEigenvalues = 5 := by
    rw [det_avg_stressedBond] at hroot
    rcases mul_eq_zero.mp hroot with h23 | h5x
    · rcases mul_eq_zero.mp h23 with h2 | h3 <;> linarith
    · linarith
  refine ⟨hc, hs, hv, ?_⟩
  refine (h.2.2 (by norm_num [stressedBond])).mpr ⟨hs, Or.inl ?_⟩
  rw [hv]
  norm_num [stressedBond, avg_surf_corr_factor]

end BondStatusPD
